import Mathlib

/-!
Verification of the plane-sweep stereo kernels (`src/student.py`) against the
specification.  Real (IEEE floating point) arithmetic is embedded as exact
rational arithmetic `ℚ`; the square roots taken by `numpy.linalg.norm` and
`np.sqrt` land in `ℝ`.  Matrices are Mathlib matrices over `ℚ`; the dense
`height × width × ·` numpy arrays are functions out of `Fin` types.

`np.linalg.inv` (which the source calls only under the spec's invertibility
precondition) is embedded by the exact adjugate formula `det⁻¹ • adjugate`,
which agrees with the true inverse whenever the determinant is nonzero.
-/

/-- Homogeneous extension of a 3-vector: the source builds `[x, y, z, 1]`
(`in_vec` in `project_impl`, `temp_vec` in `unproject_corners_impl`). -/
def toHom4 (p : Fin 3 → ℚ) : Fin 4 → ℚ := ![p 0, p 1, p 2, 1]

/-- Exact inverse of a 3×3 rational matrix (model of `np.linalg.inv(K)`;
coincides with the true inverse when `det ≠ 0`). -/
def inv3 (A : Matrix (Fin 3) (Fin 3) ℚ) : Matrix (Fin 3) (Fin 3) ℚ :=
  A.det⁻¹ • A.adjugate

/-- Exact inverse of a 4×4 rational matrix (model of `np.linalg.inv` on the
padded extrinsics; coincides with the true inverse when `det ≠ 0`). -/
def inv4 (A : Matrix (Fin 4) (Fin 4) ℚ) : Matrix (Fin 4) (Fin 4) ℚ :=
  A.det⁻¹ • A.adjugate

/-- The 4×4 homogeneous extension of the 3×4 extrinsics built by
`np.pad(Rt, [(0, 1), (0, 0)])` followed by `Rt_inv[3][3] = 1`: rows 0–2 are
the rows of `Rt`, row 3 is `[0, 0, 0, 1]`. -/
def homExt (Rt : Matrix (Fin 3) (Fin 4) ℚ) : Matrix (Fin 4) (Fin 4) ℚ :=
  Matrix.of fun i j =>
    if hi : (i : ℕ) < 3 then Rt ⟨i, hi⟩ j else if (j : ℕ) = 3 then 1 else 0

/-- Embedding of `project_impl`: for every grid cell build `[x, y, z, 1]`,
apply `Rt`, then `K`, then divide the first two components by the third. -/
def project_impl (m n : ℕ) (K : Matrix (Fin 3) (Fin 3) ℚ)
    (Rt : Matrix (Fin 3) (Fin 4) ℚ) (points : Fin m → Fin n → Fin 3 → ℚ) :
    Fin m → Fin n → Fin 2 → ℚ :=
  fun i j =>
    let ip : Fin 3 → ℚ := K.mulVec (Rt.mulVec (toHom4 (points i j)))
    ![ip 0 / ip 2, ip 1 / ip 2]

/-- Pixel x-coordinate written by `unproject_corners_impl` into grid column
`b`: column 1 holds `width - 1`, column 0 holds `0`. -/
def corner_px (width : ℕ) (b : Fin 2) : ℚ :=
  if b = 1 then (width : ℚ) - 1 else 0

/-- Pixel y-coordinate written by `unproject_corners_impl` into grid row `a`:
row 1 holds `height - 1`, row 0 holds `0`. -/
def corner_py (height : ℕ) (a : Fin 2) : ℚ :=
  if a = 1 then (height : ℚ) - 1 else 0

/-- The homogeneous 4-vector `curr_vec` computed by `unproject_corners_impl`
for corner `(a, b)` just before its perspective divide:
`Rt_inv @ [K_inv @ [px, py, 1], 1]` with `K_inv = depth * inv(K)` and
`Rt_inv = inv(homExt Rt)`. -/
def unprojHom (K : Matrix (Fin 3) (Fin 3) ℚ) (width height : ℕ) (depth : ℚ)
    (Rt : Matrix (Fin 3) (Fin 4) ℚ) (a b : Fin 2) : Fin 4 → ℚ :=
  (inv4 (homExt Rt)).mulVec
    (toHom4 ((depth • inv3 K).mulVec ![corner_px width b, corner_py height a, 1]))

/-- Embedding of `unproject_corners_impl`: each corner's output 3-vector is
`curr_vec[0..2] / curr_vec[3]`. -/
def unproject_corners_impl (K : Matrix (Fin 3) (Fin 3) ℚ) (width height : ℕ)
    (depth : ℚ) (Rt : Matrix (Fin 3) (Fin 4) ℚ) :
    Fin 2 → Fin 2 → Fin 3 → ℚ :=
  fun a b t =>
    unprojHom K width height depth Rt a b (Fin.castSucc t) /
      unprojHom K width height depth Rt a b 3

/-- Identity intrinsics fixture for the geometry witnesses. -/
def K0 : Matrix (Fin 3) (Fin 3) ℚ := 1

/-- Identity-rotation, zero-translation extrinsics fixture. -/
def Rt0 : Matrix (Fin 3) (Fin 4) ℚ :=
  Matrix.of fun i j => if (i : ℕ) = (j : ℕ) then 1 else 0

/-- Bounds-checked image accessor used to state what the numpy slice
assignments write; inside the written region the indices are always in
bounds, so this equals the image value there. -/
def getI (h w c : ℕ) (image : Fin h → Fin w → Fin c → ℚ) (r s : ℕ)
    (ch : Fin c) : ℚ :=
  if hr : r < h then if hs : s < w then image ⟨r, hr⟩ ⟨s, hs⟩ ch else 0 else 0

/-- The 5-D buffer `normalized[r, s, ch, i, j]` of `preprocess_ncc_impl`
after the fill loop
`normalized[k:h-k, k:w-k, :, i, j] = image[i:h-2k+i, j:w-2k+j, :]`
(with `k = ncc_size // 2`): rows `k ≤ r < h-k` and columns `k ≤ s < w-k`
receive `image[r-k+i, s-k+j, ch]`; everything else keeps its zero
initialization.  (Python slice `k:h-k` is empty whenever `h ≤ 2k`, which the
truncated subtraction `h - k` on `ℕ` reproduces.) -/
def patchBuf (h w c : ℕ) (image : Fin h → Fin w → Fin c → ℚ) (ncc : ℕ)
    (r : Fin h) (s : Fin w) (ch : Fin c) (i j : Fin ncc) : ℚ :=
  let k := ncc / 2
  if k ≤ (r : ℕ) ∧ (r : ℕ) < h - k ∧ k ≤ (s : ℕ) ∧ (s : ℕ) < w - k then
    getI h w c image ((r : ℕ) - k + (i : ℕ)) ((s : ℕ) - k + (j : ℕ)) ch
  else 0

/-- Per-channel patch mean: `np.mean(normalized, axis=3)` after the reshape
to `(h, w, c, ncc_size ** 2)`. -/
def chanMean (h w c : ℕ) (image : Fin h → Fin w → Fin c → ℚ) (ncc : ℕ)
    (r : Fin h) (s : Fin w) (ch : Fin c) : ℚ :=
  (∑ i : Fin ncc, ∑ j : Fin ncc, patchBuf h w c image ncc r s ch i j) /
    ((ncc * ncc : ℕ) : ℚ)

/-- The mean-subtracted buffer `normalized - np.mean(normalized, axis=3)`. -/
def meanSub (h w c : ℕ) (image : Fin h → Fin w → Fin c → ℚ) (ncc : ℕ)
    (r : Fin h) (s : Fin w) (ch : Fin c) (i j : Fin ncc) : ℚ :=
  patchBuf h w c image ncc r s ch i j - chanMean h w c image ncc r s ch

/-- Squared norm of the whole mean-subtracted vector at a pixel
(`np.linalg.norm(normalized, axis=2) ** 2` after the reshape to
`(h, w, c * ncc_size ** 2)`). -/
def normSq (h w c : ℕ) (image : Fin h → Fin w → Fin c → ℚ) (ncc : ℕ)
    (r : Fin h) (s : Fin w) : ℚ :=
  ∑ ch : Fin c, ∑ i : Fin ncc, ∑ j : Fin ncc,
    (meanSub h w c image ncc r s ch i j) ^ 2

/-- Row-major flattening of a `(c, ncc, ncc)` block, as `np.reshape` does:
flat index `n` decodes to channel `n / ncc²`, window row `(n / ncc) % ncc`,
window column `n % ncc`. -/
def flat3 (c ncc : ℕ) (f : Fin c → Fin ncc → Fin ncc → ℚ) (n : ℕ) : ℚ :=
  if hb : n / (ncc * ncc) < c ∧ (n / ncc) % ncc < ncc ∧ n % ncc < ncc then
    f ⟨n / (ncc * ncc), hb.1⟩ ⟨(n / ncc) % ncc, hb.2.1⟩ ⟨n % ncc, hb.2.2⟩
  else 0

/-- The raw (pre-normalization) flattened patch vector of
`preprocess_ncc_impl`: the fill-loop buffer reshaped to
`(h, w, c * ncc_size ** 2)`. -/
def rawPatchVec (h w c : ℕ) (image : Fin h → Fin w → Fin c → ℚ) (ncc : ℕ)
    (r : Fin h) (s : Fin w) (n : Fin (c * ncc * ncc)) : ℚ :=
  flat3 c ncc (fun ch i j => patchBuf h w c image ncc r s ch i j) (n : ℕ)

/-- Index `r` is cleared by the boundary mask assignments
`mask[:k] = False` and `mask[-k:] = False` (and their column analogues).
For `k ≥ 1`, `mask[-k:]` covers indices `≥ max(0, n-k)`, which truncated
subtraction gives directly; for `k = 0`, Python's `-0` is `0`, so
`mask[-0:]` covers the whole axis. -/
def maskCleared (n k r : ℕ) : Prop :=
  r < k ∨ (if k = 0 then 0 else n - k) ≤ r

instance maskClearedDec (n k r : ℕ) : Decidable (maskCleared n k r) := by
  unfold maskCleared
  infer_instance

/-- Python slice-index normalization: a negative index counts from the end
of the axis. -/
def pyIdx (n : ℕ) (x : ℤ) : ℤ := if x < 0 then x + n else x

/-- Length of the Python slice `a:b` over an axis of length `n`: indices are
normalized, clamped to `[0, n]`, and the length is the (nonnegative)
difference. -/
def pySliceLen (n : ℕ) (a b : ℤ) : ℕ :=
  (max 0 (min (pyIdx n b) (n : ℤ)) - max 0 (min (pyIdx n a) (n : ℤ))).toNat

/-- One axis of the numpy broadcast check for the fill assignment
`normalized[k:n-k, ...] = image[off:n-2k+off, ...]`: the source extent must
equal the target extent or be 1. -/
def assignOk (n k off : ℕ) : Bool :=
  let t := pySliceLen n (k : ℤ) ((n : ℤ) - (k : ℤ))
  let s := pySliceLen n (off : ℤ) ((n : ℤ) - 2 * (k : ℤ) + (off : ℤ))
  decide (s = t) || decide (s = 1)

/-- `preprocess_ncc_impl` raises a broadcast `ValueError` iff some iteration
`(i, j)` of the fill loop assigns a source slice whose shape does not
broadcast into the target slice (this happens exactly when
`k < h < 2k` or `k < w < 2k`). -/
def preprocessErr (h w ncc : ℕ) : Bool :=
  let k := ncc / 2
  !((List.range ncc).all fun i => (List.range ncc).all fun j =>
      assignOk h k i && assignOk w k j)

/-- The per-pixel norm after `norm[norm == 0] = 1`. -/
noncomputable def nccNormFixed (h w c : ℕ) (image : Fin h → Fin w → Fin c → ℚ)
    (ncc : ℕ) (r : Fin h) (s : Fin w) : ℝ :=
  if Real.sqrt ((normSq h w c image ncc r s : ℚ) : ℝ) = 0 then 1
  else Real.sqrt ((normSq h w c image ncc r s : ℚ) : ℝ)

/-- One output entry of `preprocess_ncc_impl` (when it does not raise):
the mean-subtracted value, zeroed by `mask` (`norm >= 1e-6` and not cleared
by the boundary assignments), divided by the fixed norm. -/
noncomputable def nccFinal (h w c : ℕ) (image : Fin h → Fin w → Fin c → ℚ)
    (ncc : ℕ) (r : Fin h) (s : Fin w) (n : Fin (c * ncc * ncc)) : ℝ :=
  let k := ncc / 2
  let ms : ℚ := flat3 c ncc (fun ch i j => meanSub h w c image ncc r s ch i j) (n : ℕ)
  let mval : ℚ :=
    if (1 / 1000000 : ℝ) ≤ nccNormFixed h w c image ncc r s ∧
        ¬ maskCleared h k (r : ℕ) ∧ ¬ maskCleared w k (s : ℕ) then ms else 0
  (mval : ℝ) / nccNormFixed h w c image ncc r s

/-- Embedding of `preprocess_ncc_impl`: either the fill loop raises a
broadcast `ValueError`, or the normalized feature field is returned. -/
noncomputable def preprocess_ncc_impl (h w c : ℕ)
    (image : Fin h → Fin w → Fin c → ℚ) (ncc : ℕ) :
    Except String (Fin h → Fin w → Fin (c * ncc * ncc) → ℝ) :=
  if preprocessErr h w ncc then
    Except.error "ValueError: could not broadcast input array"
  else Except.ok (nccFinal h w c image ncc)

/-- NCC numerator `np.sum(image1 * image2, axis=(2, 3, 4))` at one pixel. -/
def nccNum (L : ℕ) (v1 v2 : Fin L → ℚ) : ℚ := ∑ l : Fin L, v1 l * v2 l

/-- Squared NCC denominator
`np.sum(image1 ** 2, ...) * np.sum(image2 ** 2, ...)` at one pixel. -/
def nccDen2 (L : ℕ) (v1 v2 : Fin L → ℚ) : ℚ :=
  (∑ l : Fin L, v1 l ^ 2) * (∑ l : Fin L, v2 l ^ 2)

/-- Element `n` of the row-major flattening of an `(h2, w2, L2)` array, as
`np.reshape` reads the second argument of `compute_ncc_impl` when
reinterpreting it in the first argument's shape. -/
def nccRawAt (h2 w2 L2 : ℕ) (d : Fin h2 → Fin w2 → Fin L2 → ℚ) (n : ℕ) : ℚ :=
  if hb : n / (w2 * L2) < h2 ∧ (n / L2) % w2 < w2 ∧ n % L2 < L2 then
    d ⟨n / (w2 * L2), hb.1⟩ ⟨(n / L2) % w2, hb.2.1⟩ ⟨n % L2, hb.2.2⟩
  else 0

/-- The score grid of `compute_ncc_impl` (when no exception is raised).
`image2` is read through the reshape to `image1`'s shape, i.e. row-major
re-interpretation.  `denominator[denominator == 0] = 1` guards the final
division. -/
noncomputable def nccGrid (h1 w1 L1 h2 w2 L2 : ℕ)
    (image1 : Fin h1 → Fin w1 → Fin L1 → ℚ)
    (image2 : Fin h2 → Fin w2 → Fin L2 → ℚ)
    (i : Fin h1) (j : Fin w1) : ℝ :=
  let v2 : Fin L1 → ℚ := fun l =>
    nccRawAt h2 w2 L2 image2 (((i : ℕ) * w1 + (j : ℕ)) * L1 + (l : ℕ))
  let den : ℝ := Real.sqrt ((nccDen2 L1 (image1 i j) v2 : ℚ) : ℝ)
  ((nccNum L1 (image1 i j) v2 : ℚ) : ℝ) / (if den = 0 then 1 else den)

/-- Embedding of `compute_ncc_impl`.  The source performs no shape check:
`h, w, c = image1.shape[:3]` binds `c` to the full vector length, so
`ncc_size = int(np.sqrt(c // c)) = 1`; a `ZeroDivisionError` is raised when
that length is 0, and `image2.reshape((h, w, c, 1, 1))` raises `ValueError`
exactly when the total element counts differ.  Otherwise `image2` is
silently reinterpreted in `image1`'s shape and the score grid returned. -/
noncomputable def compute_ncc_impl (h1 w1 L1 h2 w2 L2 : ℕ)
    (image1 : Fin h1 → Fin w1 → Fin L1 → ℚ)
    (image2 : Fin h2 → Fin w2 → Fin L2 → ℚ) :
    Except String (Fin h1 → Fin w1 → ℝ) :=
  if L1 = 0 then Except.error "ZeroDivisionError"
  else if h2 * w2 * L2 ≠ h1 * w1 * L1 then
    Except.error "ValueError: cannot reshape array"
  else Except.ok (nccGrid h1 w1 L1 h2 w2 L2 image1 image2)

/-- Zero feature field fixture: 1×1 grid, vector length 1. -/
def zf : Fin 1 → Fin 1 → Fin 1 → ℚ := fun _ _ _ => 0

/-- Constant-one feature field fixture: 1×1 grid, vector length 1. -/
def onef : Fin 1 → Fin 1 → Fin 1 → ℚ := fun _ _ _ => 1

/-- Checkerboard-ish fixture image for the C4 witness: pixel `(r, s)` holds
`10 r + s`. -/
def img0 : Fin 3 → Fin 3 → Fin 1 → ℚ :=
  fun r s _ => ((r : ℕ) : ℚ) * 10 + ((s : ℕ) : ℚ)

/-- Constant-zero 3×3 single-channel fixture image. -/
def cimg0 : Fin 3 → Fin 3 → Fin 1 → ℚ := fun _ _ _ => 0

lemma mul_inv3 (A : Matrix (Fin 3) (Fin 3) ℚ) (hA : A.det ≠ 0) :
    A * inv3 A = 1 := by
  rw [inv3, Matrix.mul_smul, Matrix.mul_adjugate, smul_smul,
    inv_mul_cancel₀ hA, one_smul]

lemma mul_inv4 (A : Matrix (Fin 4) (Fin 4) ℚ) (hA : A.det ≠ 0) :
    A * inv4 A = 1 := by
  rw [inv4, Matrix.mul_smul, Matrix.mul_adjugate, smul_smul,
    inv_mul_cancel₀ hA, one_smul]

lemma homExt_apply_castSucc (Rt : Matrix (Fin 3) (Fin 4) ℚ) (t : Fin 3)
    (j : Fin 4) : homExt Rt (Fin.castSucc t) j = Rt t j := by
  simp [homExt, Matrix.of_apply, Fin.is_lt]

lemma homExt_apply_last (Rt : Matrix (Fin 3) (Fin 4) ℚ) (j : Fin 4) :
    homExt Rt 3 j = if (j : ℕ) = 3 then 1 else 0 := by
  have h3 : ((3 : Fin 4) : ℕ) = 3 := rfl
  simp [homExt, Matrix.of_apply, h3]

lemma homExt_mulVec_castSucc (Rt : Matrix (Fin 3) (Fin 4) ℚ) (v : Fin 4 → ℚ)
    (t : Fin 3) : (homExt Rt).mulVec v (Fin.castSucc t) = Rt.mulVec v t := by
  simp only [Matrix.mulVec, Matrix.dotProduct]
  exact Finset.sum_congr rfl fun j _ => by rw [homExt_apply_castSucc]

lemma homExt_mulVec_last (Rt : Matrix (Fin 3) (Fin 4) ℚ) (v : Fin 4 → ℚ) :
    (homExt Rt).mulVec v 3 = v 3 := by
  have e0 : ((0 : Fin 4) : ℕ) = 0 := rfl
  have e1 : ((1 : Fin 4) : ℕ) = 1 := rfl
  have e2 : ((2 : Fin 4) : ℕ) = 2 := rfl
  have e3 : ((3 : Fin 4) : ℕ) = 3 := rfl
  simp only [Matrix.mulVec, Matrix.dotProduct, Fin.sum_univ_four,
    homExt_apply_last, e0, e1, e2, e3]
  norm_num

lemma toHom4_castSucc (p : Fin 3 → ℚ) (t : Fin 3) :
    toHom4 p (Fin.castSucc t) = p t := by
  fin_cases t <;> rfl

lemma toHom4_last (p : Fin 3 → ℚ) : toHom4 p 3 = 1 := rfl

/-- The bottom component of `curr_vec` in `unproject_corners_impl` is 1:
row 3 of `homExt Rt` is `[0,0,0,1]`, hence so is row 3 of its inverse. -/
lemma unprojHom_last_eq_one (K : Matrix (Fin 3) (Fin 3) ℚ) (width height : ℕ)
    (depth : ℚ) (Rt : Matrix (Fin 3) (Fin 4) ℚ)
    (hRt : (homExt Rt).det ≠ 0) (a b : Fin 2) :
    unprojHom K width height depth Rt a b 3 = 1 := by
  have key : (homExt Rt).mulVec (unprojHom K width height depth Rt a b) 3 =
      toHom4 ((depth • inv3 K).mulVec
        ![corner_px width b, corner_py height a, 1]) 3 := by
    rw [unprojHom, Matrix.mulVec_mulVec, mul_inv4 (homExt Rt) hRt,
      Matrix.one_mulVec]
  rw [homExt_mulVec_last] at key
  rw [key, toHom4_last]

/-- With invertible extrinsics the perspective divide in
`unproject_corners_impl` is by 1, so the output 3-vector is just the first
three components of `curr_vec`. -/
lemma unproject_eq_unprojHom (K : Matrix (Fin 3) (Fin 3) ℚ)
    (width height : ℕ) (depth : ℚ) (Rt : Matrix (Fin 3) (Fin 4) ℚ)
    (hRt : (homExt Rt).det ≠ 0) (a b : Fin 2) (t : Fin 3) :
    unproject_corners_impl K width height depth Rt a b t =
      unprojHom K width height depth Rt a b (Fin.castSucc t) := by
  rw [unproject_corners_impl, unprojHom_last_eq_one K width height depth Rt hRt,
    div_one]

lemma toHom4_unproject (K : Matrix (Fin 3) (Fin 3) ℚ) (width height : ℕ)
    (depth : ℚ) (Rt : Matrix (Fin 3) (Fin 4) ℚ)
    (hRt : (homExt Rt).det ≠ 0) (a b : Fin 2) :
    toHom4 (unproject_corners_impl K width height depth Rt a b) =
      unprojHom K width height depth Rt a b := by
  funext j
  rcases Fin.eq_castSucc_or_eq_last j with ⟨t, rfl⟩ | rfl
  · rw [toHom4_castSucc, unproject_eq_unprojHom K width height depth Rt hRt]
  · have : (Fin.last 3) = (3 : Fin 4) := rfl
    rw [this, toHom4_last, unprojHom_last_eq_one K width height depth Rt hRt]

/-- Applying the extrinsics to the (homogenized) unprojected corner recovers
the camera-space point `depth • K⁻¹ @ [px, py, 1]`. -/
lemma extrinsics_unproject (K : Matrix (Fin 3) (Fin 3) ℚ) (width height : ℕ)
    (depth : ℚ) (Rt : Matrix (Fin 3) (Fin 4) ℚ)
    (hRt : (homExt Rt).det ≠ 0) (a b : Fin 2) (t : Fin 3) :
    Rt.mulVec (toHom4 (unproject_corners_impl K width height depth Rt a b)) t =
      (depth • inv3 K).mulVec ![corner_px width b, corner_py height a, 1] t := by
  rw [toHom4_unproject K width height depth Rt hRt]
  rw [← homExt_mulVec_castSucc]
  rw [unprojHom, Matrix.mulVec_mulVec, mul_inv4 (homExt Rt) hRt,
    Matrix.one_mulVec, toHom4_castSucc]

/-- `int_point` in `project_impl`, evaluated on an unprojected corner, is
exactly `depth • [px, py, 1]`. -/
lemma int_point_unproject (K : Matrix (Fin 3) (Fin 3) ℚ) (width height : ℕ)
    (depth : ℚ) (Rt : Matrix (Fin 3) (Fin 4) ℚ)
    (hK : K.det ≠ 0) (hRt : (homExt Rt).det ≠ 0) (a b : Fin 2) :
    K.mulVec (Rt.mulVec
        (toHom4 (unproject_corners_impl K width height depth Rt a b))) =
      depth • ![corner_px width b, corner_py height a, 1] := by
  have hext : Rt.mulVec
      (toHom4 (unproject_corners_impl K width height depth Rt a b)) =
      (depth • inv3 K).mulVec ![corner_px width b, corner_py height a, 1] :=
    funext fun t => extrinsics_unproject K width height depth Rt hRt a b t
  rw [hext, Matrix.mulVec_mulVec, Matrix.mul_smul, mul_inv3 K hK,
    Matrix.smul_mulVec_assoc, Matrix.one_mulVec]

/-- Claim C1: for invertible `K`, extrinsics whose 4×4 homogeneous extension
is invertible, positive width and height, and any depth making the
post-extrinsics z-coordinate of every unprojected corner nonzero,
`project(K, Rt, unprojectCorners(K, w, h, depth, Rt))` reproduces the four
original corner pixel coordinates exactly: output grid cell `[a][b]` maps
back to pixel `x = b*(w-1)`, `y = a*(h-1)`. -/
theorem C1_round_trip (K : Matrix (Fin 3) (Fin 3) ℚ)
    (Rt : Matrix (Fin 3) (Fin 4) ℚ) (width height : ℕ) (depth : ℚ)
    (hK : K.det ≠ 0) (hRt : (homExt Rt).det ≠ 0)
    (hwpos : 0 < width) (hhpos : 0 < height)
    (hz : ∀ a b : Fin 2,
      Rt.mulVec (toHom4 (unproject_corners_impl K width height depth Rt a b)) 2 ≠ 0) :
    ∀ a b : Fin 2,
      project_impl 2 2 K Rt (unproject_corners_impl K width height depth Rt) a b 0 =
        ((b : ℕ) : ℚ) * ((width : ℚ) - 1) ∧
      project_impl 2 2 K Rt (unproject_corners_impl K width height depth Rt) a b 1 =
        ((a : ℕ) : ℚ) * ((height : ℚ) - 1) := by
  intro a b
  have hdepth : depth ≠ 0 := by
    have h2 := hz a b
    rw [extrinsics_unproject K width height depth Rt hRt a b 2,
      Matrix.smul_mulVec_assoc, Pi.smul_apply, smul_eq_mul] at h2
    exact left_ne_zero_of_mul h2
  have hip := int_point_unproject K width height depth Rt hK hRt a b
  have hproj : project_impl 2 2 K Rt
      (unproject_corners_impl K width height depth Rt) a b =
      ![(depth • ![corner_px width b, corner_py height a, 1]) 0 /
          (depth • ![corner_px width b, corner_py height a, 1]) 2,
        (depth • ![corner_px width b, corner_py height a, 1]) 1 /
          (depth • ![corner_px width b, corner_py height a, 1]) 2] := by
    simp only [project_impl]
    rw [hip]
  have hA0 : (depth • ![corner_px width b, corner_py height a, 1]) 0 =
      depth * corner_px width b := rfl
  have hA1 : (depth • ![corner_px width b, corner_py height a, 1]) 1 =
      depth * corner_py height a := rfl
  have hA2 : (depth • ![corner_px width b, corner_py height a, 1]) 2 =
      depth * 1 := rfl
  constructor
  · rw [congrFun hproj 0, Matrix.cons_val_zero, hA0, hA2, mul_one,
      mul_div_cancel_left₀ _ hdepth]
    fin_cases b <;> simp [corner_px]
  · rw [congrFun hproj 1, Matrix.cons_val_one, Matrix.head_cons, hA1, hA2,
      mul_one, mul_div_cancel_left₀ _ hdepth]
    fin_cases a <;> simp [corner_py]

/-- Claim C9: whenever the 4×4 homogeneous extension of `Rt` is invertible,
the fourth (homogeneous) component of `curr_vec` — the result of applying
the inverted 4×4 matrix to `[x, y, z, 1]` in `unproject_corners_impl` — is
exactly 1 for every corner, so the final perspective divide is by 1 and can
never divide by zero. -/
theorem C9_homogeneous_component_one (K : Matrix (Fin 3) (Fin 3) ℚ)
    (width height : ℕ) (depth : ℚ) (Rt : Matrix (Fin 3) (Fin 4) ℚ)
    (hRt : (homExt Rt).det ≠ 0) (a b : Fin 2) :
    unprojHom K width height depth Rt a b 3 = 1 :=
  unprojHom_last_eq_one K width height depth Rt hRt a b

lemma homExt_Rt0 : homExt Rt0 = 1 := by
  ext i j
  fin_cases i <;> fin_cases j <;> rfl

lemma hRt0det : (homExt Rt0).det ≠ 0 := by
  rw [homExt_Rt0, Matrix.det_one]
  exact one_ne_zero

lemma inv3_one : inv3 (1 : Matrix (Fin 3) (Fin 3) ℚ) = 1 := by
  rw [inv3, Matrix.det_one, Matrix.adjugate_one, inv_one, one_smul]

lemma inv4_one : inv4 (1 : Matrix (Fin 4) (Fin 4) ℚ) = 1 := by
  rw [inv4, Matrix.det_one, Matrix.adjugate_one, inv_one, one_smul]

lemma unprojHom_fixture (a b : Fin 2) :
    unprojHom K0 2 2 1 Rt0 a b =
      toHom4 ![corner_px 2 b, corner_py 2 a, 1] := by
  rw [unprojHom, homExt_Rt0, inv4_one, Matrix.one_mulVec, K0, inv3_one,
    one_smul, Matrix.one_mulVec]

lemma hz_fixture : ∀ a b : Fin 2,
    Rt0.mulVec (toHom4 (unproject_corners_impl K0 2 2 1 Rt0 a b)) 2 ≠ 0 := by
  intro a b
  rw [toHom4_unproject K0 2 2 1 Rt0 hRt0det, unprojHom_fixture]
  have hval : Rt0.mulVec (toHom4 ![corner_px 2 b, corner_py 2 a, 1]) 2 = 1 := by
    simp only [Rt0, Matrix.mulVec, Matrix.dotProduct, Fin.sum_univ_four, toHom4,
      Matrix.of_apply, Matrix.cons_val_zero, Matrix.cons_val_one, Matrix.head_cons]
    norm_num
    decide
  rw [hval]
  exact one_ne_zero

/-- Witness for C1 at `K = I`, `Rt = [I | 0]`, `width = height = 2`,
`depth = 1`, corner `(1,1)`: the projection returns pixel `(1, 1)`. -/
theorem C1_round_trip_witness :
    project_impl 2 2 K0 Rt0 (unproject_corners_impl K0 2 2 1 Rt0) 1 1 0 = 1 ∧
    project_impl 2 2 K0 Rt0 (unproject_corners_impl K0 2 2 1 Rt0) 1 1 1 = 1 := by
  have h := C1_round_trip K0 Rt0 2 2 1
    (by rw [K0, Matrix.det_one]; exact one_ne_zero) hRt0det
    (by norm_num) (by norm_num) hz_fixture 1 1
  have e1 : (((1 : Fin 2) : ℕ) : ℚ) = 1 := rfl
  refine ⟨?_, ?_⟩
  · rw [h.1, e1]; norm_num
  · rw [h.2, e1]; norm_num

/-- Witness for C9 at `K = I`, `Rt = [I | 0]`, corner `(0,0)`. -/
theorem C9_witness : unprojHom K0 2 2 1 Rt0 0 0 3 = 1 :=
  C9_homogeneous_component_one K0 2 2 1 Rt0 hRt0det 0 0

/-- Decoding a row-major encoded triple index. -/
lemma decode3 (B C a b c' : ℕ) (hb : b < B) (hc : c' < C) :
    ((a * B + b) * C + c') / (B * C) = a ∧
    (((a * B + b) * C + c') / C) % B = b ∧
    ((a * B + b) * C + c') % C = c' := by
  have hC : 0 < C := Nat.pos_of_ne_zero fun h => by omega
  have hB : 0 < B := Nat.pos_of_ne_zero fun h => by omega
  refine ⟨?_, ?_, ?_⟩
  · have hrewrite : (a * B + b) * C + c' = B * C * a + (b * C + c') := by ring
    have hsmall : b * C + c' < B * C := by
      calc b * C + c' < b * C + C := by omega
        _ = (b + 1) * C := by ring
        _ ≤ B * C := Nat.mul_le_mul_right C hb
    rw [hrewrite, Nat.mul_add_div (Nat.mul_pos hB hC), Nat.div_eq_of_lt hsmall,
      Nat.add_zero]
  · have hrewrite : (a * B + b) * C + c' = C * (a * B + b) + c' := by ring
    rw [hrewrite, Nat.mul_add_div hC, Nat.div_eq_of_lt hc, Nat.add_zero,
      Nat.mul_comm a B, Nat.mul_add_mod, Nat.mod_eq_of_lt hb]
  · have hrewrite : (a * B + b) * C + c' = c' + (a * B + b) * C := by ring
    rw [hrewrite, Nat.add_mul_mod_self_right, Nat.mod_eq_of_lt hc]

/-- Applying a triple-indexed field at `Fin.mk`-packaged indices that are
provably the given ones. -/
lemma apply3_mk {A B C : ℕ} (f : Fin A → Fin B → Fin C → ℚ)
    (x y z : ℕ) (hx : x < A) (hy : y < B) (hz : z < C)
    (a : Fin A) (b : Fin B) (c : Fin C)
    (ex : x = (a : ℕ)) (ey : y = (b : ℕ)) (ez : z = (c : ℕ)) :
    f ⟨x, hx⟩ ⟨y, hy⟩ ⟨z, hz⟩ = f a b c := by
  subst ex ey ez
  simp

/-- Reading the row-major flattening of a `(c, ncc, ncc)` block at the
encoded index of `(ch, i, j)` recovers the entry. -/
lemma flat3_encode (c ncc : ℕ) (f : Fin c → Fin ncc → Fin ncc → ℚ)
    (ch : Fin c) (i j : Fin ncc) :
    flat3 c ncc f ((ch : ℕ) * (ncc * ncc) + (i : ℕ) * ncc + (j : ℕ)) = f ch i j := by
  have henc : (ch : ℕ) * (ncc * ncc) + (i : ℕ) * ncc + (j : ℕ) =
      (((ch : ℕ) * ncc + (i : ℕ)) * ncc + (j : ℕ)) := by ring
  obtain ⟨h1, h2, h3⟩ := decode3 ncc ncc (ch : ℕ) (i : ℕ) (j : ℕ) i.isLt j.isLt
  rw [henc, flat3,
    dif_pos ⟨by rw [h1]; exact ch.isLt, by rw [h2]; exact i.isLt,
      by rw [h3]; exact j.isLt⟩]
  exact apply3_mk f _ _ _ _ _ _ ch i j h1 h2 h3

/-- Reading the row-major flattening of an `(h, w, L)` field at the encoded
index of `(i, j, l)` recovers the entry; in particular, when the two
arguments of `compute_ncc_impl` have literally equal shapes the reshape
re-interpretation is the identity. -/
lemma nccRawAt_encode (h w L : ℕ) (d : Fin h → Fin w → Fin L → ℚ)
    (i : Fin h) (j : Fin w) (l : Fin L) :
    nccRawAt h w L d (((i : ℕ) * w + (j : ℕ)) * L + (l : ℕ)) = d i j l := by
  obtain ⟨h1, h2, h3⟩ := decode3 w L (i : ℕ) (j : ℕ) (l : ℕ) j.isLt l.isLt
  rw [nccRawAt,
    dif_pos ⟨by rw [h1]; exact i.isLt, by rw [h2]; exact j.isLt,
      by rw [h3]; exact l.isLt⟩]
  exact apply3_mk d _ _ _ _ _ _ i j l h1 h2 h3

/-- On equal-shaped inputs the score grid at a pixel is the NCC of the two
feature vectors at that pixel. -/
lemma nccGrid_same (h w L : ℕ) (f1 f2 : Fin h → Fin w → Fin L → ℚ)
    (i : Fin h) (j : Fin w) :
    nccGrid h w L h w L f1 f2 i j =
      ((nccNum L (f1 i j) (f2 i j) : ℚ) : ℝ) /
        (if Real.sqrt ((nccDen2 L (f1 i j) (f2 i j) : ℚ) : ℝ) = 0 then 1
         else Real.sqrt ((nccDen2 L (f1 i j) (f2 i j) : ℚ) : ℝ)) := by
  have hv2 : (fun l : Fin L =>
      nccRawAt h w L f2 (((i : ℕ) * w + (j : ℕ)) * L + (l : ℕ))) = f2 i j :=
    funext fun l => nccRawAt_encode h w L f2 i j l
  rw [nccGrid]
  simp only [hv2]

lemma sum_sq_nonneg (L : ℕ) (v : Fin L → ℚ) : 0 ≤ ∑ l : Fin L, v l ^ 2 :=
  Finset.sum_nonneg fun _ _ => sq_nonneg _

lemma sum_sq_eq_zero_iff (L : ℕ) (v : Fin L → ℚ) :
    (∑ l : Fin L, v l ^ 2) = 0 ↔ ∀ l, v l = 0 := by
  rw [Finset.sum_eq_zero_iff_of_nonneg fun _ _ => sq_nonneg _]
  constructor
  · intro hz l
    exact pow_eq_zero_iff two_ne_zero |>.mp (hz l (Finset.mem_univ l))
  · intro hz l _
    rw [hz l]
    norm_num

/-- A successful `compute_ncc_impl` on equal-shaped inputs returns exactly
the score grid. -/
lemma compute_ok_elim (h w L : ℕ) (f1 f2 : Fin h → Fin w → Fin L → ℚ)
    (g : Fin h → Fin w → ℝ)
    (hok : compute_ncc_impl h w L h w L f1 f2 = Except.ok g) :
    g = nccGrid h w L h w L f1 f2 := by
  rw [compute_ncc_impl] at hok
  by_cases hL : L = 0
  · rw [if_pos hL] at hok
    exact absurd hok (by simp)
  · rw [if_neg hL, if_neg (by omega)] at hok
    exact (Except.ok.inj hok).symm

/-- A successful `preprocess_ncc_impl` returns exactly the normalized field. -/
lemma preprocess_ok_elim (h w c : ℕ) (image : Fin h → Fin w → Fin c → ℚ)
    (ncc : ℕ) (out : Fin h → Fin w → Fin (c * ncc * ncc) → ℝ)
    (hok : preprocess_ncc_impl h w c image ncc = Except.ok out) :
    out = nccFinal h w c image ncc := by
  rw [preprocess_ncc_impl] at hok
  by_cases he : preprocessErr h w ncc = true
  · rw [if_pos he] at hok
    exact absurd hok (by simp)
  · rw [if_neg he] at hok
    exact (Except.ok.inj hok).symm

/-- Claim C2 (corrected): `compute_ncc_impl` performs no explicit shape
precondition check.  It fails exactly when the vector length of the first
field is 0 (`ZeroDivisionError`) or the total element counts differ
(`ValueError` from `reshape`); mismatched shapes with equal element counts
are silently accepted and a score field is returned. -/
theorem C2_no_shape_check (h1 w1 L1 h2 w2 L2 : ℕ)
    (image1 : Fin h1 → Fin w1 → Fin L1 → ℚ)
    (image2 : Fin h2 → Fin w2 → Fin L2 → ℚ) :
    (compute_ncc_impl h1 w1 L1 h2 w2 L2 image1 image2).isOk = true ↔
      (L1 ≠ 0 ∧ h2 * w2 * L2 = h1 * w1 * L1) := by
  rw [compute_ncc_impl]
  by_cases hL : L1 = 0
  · simp [hL, Except.isOk, Except.toBool]
  · by_cases hc : h2 * w2 * L2 = h1 * w1 * L1
    · simp [hL, hc, Except.isOk, Except.toBool]
    · simp [hL, hc, Except.isOk, Except.toBool]

/-- Counterexample to claim C2 as stated: the fields have shapes
`(1, 1, 2)` and `(1, 2, 1)` — widths and vector lengths differ — yet
`compute_ncc_impl` does not fail; it silently returns a score field. -/
theorem C2_counterexample :
    (compute_ncc_impl 1 1 2 1 2 1 (fun _ _ _ => (1 : ℚ))
      (fun _ _ _ => (1 : ℚ))).isOk = true := by
  rw [compute_ncc_impl]
  norm_num [Except.isOk, Except.toBool]

/-- Claim C8: `correlate(f1, f2)` equals `correlate(f2, f1)`: the error
behaviour coincides and at each pixel the numerator and denominator are
symmetric in the two arguments. -/
theorem C8_symmetry (h w L : ℕ) (f1 f2 : Fin h → Fin w → Fin L → ℚ) :
    compute_ncc_impl h w L h w L f1 f2 = compute_ncc_impl h w L h w L f2 f1 := by
  rw [compute_ncc_impl, compute_ncc_impl]
  by_cases hL : L = 0
  · rw [if_pos hL, if_pos hL]
  · rw [if_neg hL, if_neg hL, if_neg (by omega), if_neg (by omega)]
    congr 1
    funext i j
    rw [nccGrid_same, nccGrid_same]
    have hnum : nccNum L (f1 i j) (f2 i j) = nccNum L (f2 i j) (f1 i j) := by
      unfold nccNum
      exact Finset.sum_congr rfl fun l _ => mul_comm _ _
    have hden : nccDen2 L (f1 i j) (f2 i j) = nccDen2 L (f2 i j) (f1 i j) :=
      mul_comm _ _
    rw [hnum, hden]

/-- Claim C6: on equal-shaped feature fields, whenever the denominator
`sqrt(sum(v1²) * sum(v2²))` at a pixel is exactly zero the returned score is
exactly 0 (the numerator vanishes as well, so no NaN/Inf can arise), and
otherwise the score is `numerator / denominator`. -/
theorem C6_zero_denominator (h w L : ℕ) (f1 f2 : Fin h → Fin w → Fin L → ℚ)
    (g : Fin h → Fin w → ℝ)
    (hok : compute_ncc_impl h w L h w L f1 f2 = Except.ok g)
    (i : Fin h) (j : Fin w) :
    (Real.sqrt ((nccDen2 L (f1 i j) (f2 i j) : ℚ) : ℝ) = 0 → g i j = 0) ∧
    (Real.sqrt ((nccDen2 L (f1 i j) (f2 i j) : ℚ) : ℝ) ≠ 0 →
      g i j = ((nccNum L (f1 i j) (f2 i j) : ℚ) : ℝ) /
        Real.sqrt ((nccDen2 L (f1 i j) (f2 i j) : ℚ) : ℝ)) := by
  have hg := compute_ok_elim h w L f1 f2 g hok
  subst hg
  rw [nccGrid_same]
  constructor
  · intro hzero
    have hd2 : nccDen2 L (f1 i j) (f2 i j) = 0 := by
      have hnn : (0 : ℝ) ≤ ((nccDen2 L (f1 i j) (f2 i j) : ℚ) : ℝ) := by
        have hq : (0 : ℚ) ≤ nccDen2 L (f1 i j) (f2 i j) :=
          mul_nonneg (sum_sq_nonneg L (f1 i j)) (sum_sq_nonneg L (f2 i j))
        exact_mod_cast hq
      have hle := Real.sqrt_eq_zero'.mp hzero
      have hcast : ((nccDen2 L (f1 i j) (f2 i j) : ℚ) : ℝ) = 0 :=
        le_antisymm hle hnn
      exact_mod_cast hcast
    have hnum : nccNum L (f1 i j) (f2 i j) = 0 := by
      rcases mul_eq_zero.mp hd2 with h1 | h1
      · have hall := (sum_sq_eq_zero_iff L (f1 i j)).mp h1
        exact Finset.sum_eq_zero fun l _ => by rw [hall l, zero_mul]
      · have hall := (sum_sq_eq_zero_iff L (f2 i j)).mp h1
        exact Finset.sum_eq_zero fun l _ => by rw [hall l, mul_zero]
    rw [if_pos hzero, hnum]
    norm_num
  · intro hne
    rw [if_neg hne]

/-- Claim C7: self-correlation scores exactly 1 at every pixel with a
non-zero feature vector and exactly 0 at every pixel with the zero vector. -/
theorem C7_self_correlation (h w L : ℕ) (f : Fin h → Fin w → Fin L → ℚ)
    (g : Fin h → Fin w → ℝ)
    (hok : compute_ncc_impl h w L h w L f f = Except.ok g)
    (i : Fin h) (j : Fin w) :
    (f i j ≠ 0 → g i j = 1) ∧ (f i j = 0 → g i j = 0) := by
  have hg := compute_ok_elim h w L f f g hok
  subst hg
  rw [nccGrid_same]
  constructor
  · intro hne
    obtain ⟨l0, hl0⟩ := Function.ne_iff.mp hne
    have hl0' : f i j l0 ≠ 0 := by simpa using hl0
    have hspos : 0 < ∑ l : Fin L, f i j l ^ 2 := by
      refine Finset.sum_pos' (fun l _ => sq_nonneg _) ⟨l0, Finset.mem_univ l0, ?_⟩
      positivity
    have hnum : nccNum L (f i j) (f i j) = ∑ l : Fin L, f i j l ^ 2 :=
      Finset.sum_congr rfl fun l _ => (pow_two (f i j l)).symm
    have hsqrt : Real.sqrt ((nccDen2 L (f i j) (f i j) : ℚ) : ℝ) =
        ((∑ l : Fin L, f i j l ^ 2 : ℚ) : ℝ) := by
      have hden : nccDen2 L (f i j) (f i j) =
          (∑ l : Fin L, f i j l ^ 2) * (∑ l : Fin L, f i j l ^ 2) := rfl
      rw [hden]
      push_cast
      exact Real.sqrt_mul_self (by exact_mod_cast hspos.le)
    have hsne : ((∑ l : Fin L, f i j l ^ 2 : ℚ) : ℝ) ≠ 0 := by
      exact_mod_cast hspos.ne'
    rw [hsqrt, if_neg hsne, hnum]
    exact div_self hsne
  · intro hzero
    have hnum : nccNum L (f i j) (f i j) = 0 := by
      unfold nccNum
      rw [hzero]
      simp
    have hden : nccDen2 L (f i j) (f i j) = 0 := by
      unfold nccDen2
      rw [hzero]
      simp
    rw [hnum, hden]
    simp

/-- Witness for C6: for the zero field against itself the denominator is
zero and the returned score is 0. -/
theorem C6_witness : nccGrid 1 1 1 1 1 1 zf zf 0 0 = 0 := by
  have hok : compute_ncc_impl 1 1 1 1 1 1 zf zf =
      Except.ok (nccGrid 1 1 1 1 1 1 zf zf) := by
    rw [compute_ncc_impl]
    norm_num
  refine (C6_zero_denominator 1 1 1 zf zf (nccGrid 1 1 1 1 1 1 zf zf)
    hok 0 0).1 ?_
  have hd : nccDen2 1 (zf 0 0) (zf 0 0) = 0 := by
    unfold nccDen2 zf
    simp
  rw [hd]
  simp

/-- Witness for C7: the constant-one field self-correlates to exactly 1 at
its (non-zero) pixel. -/
theorem C7_witness : nccGrid 1 1 1 1 1 1 onef onef 0 0 = 1 := by
  have hok : compute_ncc_impl 1 1 1 1 1 1 onef onef =
      Except.ok (nccGrid 1 1 1 1 1 1 onef onef) := by
    rw [compute_ncc_impl]
    norm_num
  refine (C7_self_correlation 1 1 1 onef (nccGrid 1 1 1 1 1 1 onef onef)
    hok 0 0).1 ?_
  intro hc
  have h1 := congrFun hc 0
  norm_num [onef] at h1

lemma maskCleared_of_lt (n k x : ℕ) (hx : x < k) : maskCleared n k x :=
  Or.inl hx

lemma maskCleared_of_ge (n k x : ℕ) (hx : n - k ≤ x) : maskCleared n k x := by
  right
  split
  · exact Nat.zero_le x
  · exact hx

lemma normSq_nonneg (h w c : ℕ) (image : Fin h → Fin w → Fin c → ℚ)
    (ncc : ℕ) (r : Fin h) (s : Fin w) : 0 ≤ normSq h w c image ncc r s :=
  Finset.sum_nonneg fun _ _ => Finset.sum_nonneg fun _ _ =>
    Finset.sum_nonneg fun _ _ => sq_nonneg _

lemma normSq_eq_zero_iff (h w c : ℕ) (image : Fin h → Fin w → Fin c → ℚ)
    (ncc : ℕ) (r : Fin h) (s : Fin w) :
    normSq h w c image ncc r s = 0 ↔
      ∀ ch i j, meanSub h w c image ncc r s ch i j = 0 := by
  unfold normSq
  rw [Finset.sum_eq_zero_iff_of_nonneg fun _ _ =>
    Finset.sum_nonneg fun _ _ => Finset.sum_nonneg fun _ _ => sq_nonneg _]
  constructor
  · intro hz ch i j
    have h1 := hz ch (Finset.mem_univ ch)
    rw [Finset.sum_eq_zero_iff_of_nonneg fun _ _ =>
      Finset.sum_nonneg fun _ _ => sq_nonneg _] at h1
    have h2 := h1 i (Finset.mem_univ i)
    rw [sum_sq_eq_zero_iff] at h2
    exact h2 j
  · intro hz ch _
    refine Finset.sum_eq_zero fun i _ => Finset.sum_eq_zero fun j _ => ?_
    rw [hz ch i j]
    norm_num

/-- Claim C3 (amended): whenever `preprocess_ncc_impl` returns (the fill
loop's slice assignments are broadcast-compatible), every output vector at a
pixel within the `k`-margin of any side is the all-zero vector, for every
image content. -/
theorem C3_boundary_zero (h w c : ℕ) (image : Fin h → Fin w → Fin c → ℚ)
    (k : ℕ) (out : Fin h → Fin w → Fin (c * (2 * k + 1) * (2 * k + 1)) → ℝ)
    (hok : preprocess_ncc_impl h w c image (2 * k + 1) = Except.ok out)
    (r : Fin h) (s : Fin w)
    (hb : (r : ℕ) < k ∨ h - k ≤ (r : ℕ) ∨ (s : ℕ) < k ∨ w - k ≤ (s : ℕ)) :
    ∀ n, out r s n = 0 := by
  intro n
  rw [preprocess_ok_elim h w c image (2 * k + 1) out hok]
  have hk : (2 * k + 1) / 2 = k := by omega
  have hcl : maskCleared h ((2 * k + 1) / 2) (r : ℕ) ∨
      maskCleared w ((2 * k + 1) / 2) (s : ℕ) := by
    rw [hk]
    rcases hb with h1 | h1 | h1 | h1
    · exact Or.inl (maskCleared_of_lt h k (r : ℕ) h1)
    · exact Or.inl (maskCleared_of_ge h k (r : ℕ) h1)
    · exact Or.inr (maskCleared_of_lt w k (s : ℕ) h1)
    · exact Or.inr (maskCleared_of_ge w k (s : ℕ) h1)
  have hnot : ¬ ((1 / 1000000 : ℝ) ≤
        nccNormFixed h w c image (2 * k + 1) r s ∧
      ¬ maskCleared h ((2 * k + 1) / 2) (r : ℕ) ∧
      ¬ maskCleared w ((2 * k + 1) / 2) (s : ℕ)) := by
    intro hcond
    rcases hcl with hc | hc
    · exact hcond.2.1 hc
    · exact hcond.2.2 hc
  simp only [nccFinal]
  rw [if_neg hnot]
  simp

/-- Counterexample to claim C3 as stated: for a 3×3 single-channel image and
`windowSize = 5` (so `k = 2` and `k < h < 2k`), the fill loop's first slice
assignment tries to broadcast a source of 2 rows into an empty target slice
and `preprocess_ncc_impl` raises a `ValueError` instead of returning the
all-zero boundary vectors. -/
theorem C3_counterexample :
    (preprocess_ncc_impl 3 3 1 (fun _ _ _ => (0 : ℚ)) 5).isOk = false := by
  have herr : preprocessErr 3 3 5 = true := by decide
  rw [preprocess_ncc_impl, if_pos herr]
  rfl

/-- Witness for the amended C3 at a 3×3 constant-one image, `windowSize 3`,
boundary pixel `(0, 0)`. -/
theorem C3_witness :
    nccFinal 3 3 1 (fun _ _ _ => (1 : ℚ)) 3 0 0 ⟨0, by norm_num⟩ = 0 := by
  have herr : preprocessErr 3 3 3 = false := by decide
  have hok : preprocess_ncc_impl 3 3 1 (fun _ _ _ => (1 : ℚ)) 3 =
      Except.ok (nccFinal 3 3 1 (fun _ _ _ => (1 : ℚ)) 3) := by
    rw [preprocess_ncc_impl, herr]
    simp
  exact C3_boundary_zero 3 3 1 (fun _ _ _ => (1 : ℚ)) 1
    (nccFinal 3 3 1 (fun _ _ _ => (1 : ℚ)) 3) hok 0 0
    (Or.inl (by decide)) ⟨0, by norm_num⟩

/-- Claim C4: at an interior pixel `(r, s)` the raw (pre-normalization)
patch vector of `preprocess_ncc_impl` holds, at flat index
`ch*windowSize² + i*windowSize + j`, exactly the image value at row
`r-k+i`, column `s-k+j`, channel `ch` — channel-major, then row-major, then
column flattening. -/
theorem C4_flatten_order (h w c : ℕ) (image : Fin h → Fin w → Fin c → ℚ)
    (k : ℕ) (r : Fin h) (s : Fin w) (ch : Fin c) (i j : Fin (2 * k + 1))
    (n : Fin (c * (2 * k + 1) * (2 * k + 1)))
    (hr1 : k ≤ (r : ℕ)) (hr2 : (r : ℕ) + k < h)
    (hs1 : k ≤ (s : ℕ)) (hs2 : (s : ℕ) + k < w)
    (hn : (n : ℕ) = (ch : ℕ) * ((2 * k + 1) * (2 * k + 1)) +
      (i : ℕ) * (2 * k + 1) + (j : ℕ)) :
    rawPatchVec h w c image (2 * k + 1) r s n =
      image ⟨(r : ℕ) - k + (i : ℕ), by have := i.isLt; omega⟩
        ⟨(s : ℕ) - k + (j : ℕ), by have := j.isLt; omega⟩ ch := by
  rw [rawPatchVec, hn, flat3_encode]
  have hk : (2 * k + 1) / 2 = k := by omega
  simp only [patchBuf, hk]
  rw [if_pos ⟨hr1, by omega, hs1, by omega⟩]
  rw [getI, dif_pos (by have := i.isLt; omega : (r : ℕ) - k + (i : ℕ) < h)]
  rw [dif_pos (by have := j.isLt; omega : (s : ℕ) - k + (j : ℕ) < w)]

/-- Witness for C4: a 3×3 image, `windowSize 3`, interior pixel `(1, 1)`,
flat index 0 (`ch = i = j = 0`) reads image pixel `(0, 0)`. -/
theorem C4_witness : rawPatchVec 3 3 1 img0 3 1 1 ⟨0, by norm_num⟩ = 0 := by
  have h := C4_flatten_order 3 3 1 img0 1 1 1 0 ⟨0, by norm_num⟩ ⟨0, by norm_num⟩
    ⟨0, by norm_num⟩ (by decide) (by decide) (by decide) (by decide) (by decide)
  refine h.trans ?_
  norm_num [img0]

/-- Claim C5: at any interior pixel, if the Euclidean norm of the whole
mean-subtracted vector is below `1e-6`, the output vector of
`preprocess_ncc_impl` at that pixel is all zeros (if the norm is exactly
zero the vector itself already vanishes; otherwise the `norm >= 1e-6` mask
clears it). -/
theorem C5_degenerate_norm (h w c : ℕ) (image : Fin h → Fin w → Fin c → ℚ)
    (k : ℕ) (out : Fin h → Fin w → Fin (c * (2 * k + 1) * (2 * k + 1)) → ℝ)
    (hok : preprocess_ncc_impl h w c image (2 * k + 1) = Except.ok out)
    (r : Fin h) (s : Fin w)
    (hr1 : k ≤ (r : ℕ)) (hr2 : (r : ℕ) + k < h)
    (hs1 : k ≤ (s : ℕ)) (hs2 : (s : ℕ) + k < w)
    (hnorm : Real.sqrt ((normSq h w c image (2 * k + 1) r s : ℚ) : ℝ) <
      1 / 1000000) :
    ∀ n, out r s n = 0 := by
  intro n
  rw [preprocess_ok_elim h w c image (2 * k + 1) out hok]
  by_cases hzero : normSq h w c image (2 * k + 1) r s = 0
  · have hall := (normSq_eq_zero_iff h w c image (2 * k + 1) r s).mp hzero
    have hms : flat3 c (2 * k + 1)
        (fun ch i j => meanSub h w c image (2 * k + 1) r s ch i j) (n : ℕ) = 0 := by
      rw [flat3]
      split
      · exact hall _ _ _
      · rfl
    simp only [nccFinal, hms]
    rw [ite_self]
    simp
  · have hpos : 0 < normSq h w c image (2 * k + 1) r s :=
      lt_of_le_of_ne (normSq_nonneg h w c image (2 * k + 1) r s) (Ne.symm hzero)
    have hsqrtpos : 0 < Real.sqrt ((normSq h w c image (2 * k + 1) r s : ℚ) : ℝ) :=
      Real.sqrt_pos.mpr (by exact_mod_cast hpos)
    have hnf : nccNormFixed h w c image (2 * k + 1) r s =
        Real.sqrt ((normSq h w c image (2 * k + 1) r s : ℚ) : ℝ) := by
      rw [nccNormFixed, if_neg hsqrtpos.ne']
    have hnot : ¬ ((1 / 1000000 : ℝ) ≤
          nccNormFixed h w c image (2 * k + 1) r s ∧
        ¬ maskCleared h ((2 * k + 1) / 2) (r : ℕ) ∧
        ¬ maskCleared w ((2 * k + 1) / 2) (s : ℕ)) := by
      intro hcond
      have := hcond.1
      rw [hnf] at this
      exact absurd this (not_le.mpr hnorm)
    simp only [nccFinal]
    rw [if_neg hnot]
    simp

lemma cimg0_normSq : normSq 3 3 1 cimg0 3 1 1 = 0 := by
  unfold normSq meanSub chanMean patchBuf getI cimg0
  simp

/-- Witness for C5: a constant image has zero intra-patch variance, its
mean-subtracted norm is `0 < 1e-6`, and the interior pixel `(1, 1)` of the
output is zero. -/
theorem C5_witness : nccFinal 3 3 1 cimg0 3 1 1 ⟨0, by norm_num⟩ = 0 := by
  have herr : preprocessErr 3 3 3 = false := by decide
  have hok : preprocess_ncc_impl 3 3 1 cimg0 3 =
      Except.ok (nccFinal 3 3 1 cimg0 3) := by
    rw [preprocess_ncc_impl, herr]
    simp
  refine C5_degenerate_norm 3 3 1 cimg0 1 (nccFinal 3 3 1 cimg0 3) hok 1 1
    (by decide) (by decide) (by decide) (by decide) ?_ ⟨0, by norm_num⟩
  show Real.sqrt ((normSq 3 3 1 cimg0 3 1 1 : ℚ) : ℝ) < 1 / 1000000
  rw [cimg0_normSq]
  norm_num

lemma pySliceLen_zero_n (n : ℕ) : pySliceLen n 0 (n : ℤ) = n := by
  unfold pySliceLen pyIdx
  rw [if_neg (by omega), if_neg (by omega)]
  omega

lemma assignOk_k_zero (n : ℕ) : assignOk n 0 0 = true := by
  unfold assignOk
  have h2 : ((n : ℤ) - 2 * ((0 : ℕ) : ℤ) + ((0 : ℕ) : ℤ)) =
      ((n : ℤ) - ((0 : ℕ) : ℤ)) := by omega
  rw [h2]
  simp

/-- For `windowSize = 1` the fill loop's only assignment copies the whole
image into the whole buffer, so no broadcast error can occur. -/
lemma preprocessErr_one (h w : ℕ) : preprocessErr h w 1 = false := by
  have hr : List.range 1 = [0] := rfl
  have hk : (1 : ℕ) / 2 = 0 := rfl
  simp only [preprocessErr, hr, hk, List.all_cons, List.all_nil]
  rw [assignOk_k_zero h, assignOk_k_zero w]
  rfl

/-- Claim C10: for `windowSize = 1` (`k = 0`), `preprocess_ncc_impl` returns
the all-zero field for every input image — the per-channel mean subtraction
already zeroes each single-element block, and independently the boundary
mask clearing `mask[-0:] = False` (Python `-0` is `0`) clears every pixel. -/
theorem C10_window_one (h w c : ℕ) (image : Fin h → Fin w → Fin c → ℚ) :
    preprocess_ncc_impl h w c image 1 = Except.ok (nccFinal h w c image 1) ∧
    (∀ (r : Fin h) (s : Fin w) (n : Fin (c * 1 * 1)),
      nccFinal h w c image 1 r s n = 0) ∧
    (∀ (r : Fin h) (s : Fin w) (ch : Fin c) (i j : Fin 1),
      meanSub h w c image 1 r s ch i j = 0) := by
  refine ⟨?_, ?_, ?_⟩
  · rw [preprocess_ncc_impl, preprocessErr_one]
    simp
  · intro r s n
    have hcl : maskCleared h (1 / 2) (r : ℕ) := by
      unfold maskCleared
      right
      norm_num
    have hnot : ¬ ((1 / 1000000 : ℝ) ≤ nccNormFixed h w c image 1 r s ∧
        ¬ maskCleared h (1 / 2) (r : ℕ) ∧ ¬ maskCleared w (1 / 2) (s : ℕ)) := by
      intro hcond
      exact hcond.2.1 hcl
    simp only [nccFinal]
    rw [if_neg hnot]
    simp
  · intro r s ch i j
    have hi : i = 0 := Fin.eq_zero i
    have hj : j = 0 := Fin.eq_zero j
    subst hi hj
    unfold meanSub chanMean
    rw [Fin.sum_univ_one, Fin.sum_univ_one]
    norm_num

